import Mathlib

/-!
Verification of the svue-api session-token codec, upstream gateway and
gradebook transformer against their natural-language specification.

The Rust source is embedded shallowly:
* machine strings are Lean `String`s (lists of characters), raw byte
  strings are `List Nat`;
* the AES-128-GCM-SIV cipher of the `aes_gcm_siv` crate (external to the
  repository) is modelled by an executable authenticated-encryption pair
  `encryptM`/`decryptM` satisfying the AEAD contract the code relies on
  (ciphertext = body ‖ tag, decryption checks the tag and is a left
  inverse of encryption under the same key and nonce);
* `serde_json` serialization of the session record is modelled by an
  executable field codec `serializeAuthToken`/`deserializeAuthToken`
  (length-prefixed fields, decimal digits for the 128-bit expiry);
* the process-wide key, the random per-call nonce and the wall clock are
  explicit parameters.
All control flow (length checks, error classification, cookie merging,
parsing fallback chains, letter-grade thresholds) is translated directly
from the Rust source.
-/

namespace Svue

/-! ### Basic character-list helpers -/

/-- Data of an explicitly built string. -/
theorem data_mk (l : List Char) : (String.mk l).data = l := rfl

/-- Model of Rust `str::split_once(sep)`: split at the first occurrence of
`sep`, returning the parts before and after it. -/
def splitOnce : List Char → Char → Option (List Char × List Char)
  | [], _ => none
  | h :: t, sep =>
    if h = sep then some ([], t)
    else (splitOnce t sep).map fun p => (h :: p.1, p.2)

/-- Model of Rust `str::contains(pat)` on character lists: `pat` occurs as a
contiguous substring of `hay`. -/
def containsSub (hay pat : List Char) : Bool :=
  match hay with
  | [] => decide (pat = [])
  | _ :: t => pat.isPrefixOf hay || containsSub t pat

/-- String wrapper for `containsSub`. -/
def strContains (hay pat : String) : Bool := containsSub hay.data pat.data

/-- Fuel-driven worker for `replaceAll`; the fuel dominates the input
length, so the zero-fuel branch is never taken from `replaceAll`. -/
def replaceAllFuel : Nat → List Char → List Char → List Char → List Char
  | 0, _, _, _ => []
  | _ + 1, [], _, _ => []
  | n + 1, h :: t, pat, rep =>
    if pat ≠ [] ∧ pat.isPrefixOf (h :: t) = true then
      rep ++ replaceAllFuel n ((h :: t).drop pat.length) pat rep
    else
      h :: replaceAllFuel n t pat rep

/-- Model of Rust `str::replace(pat, rep)`: replace every non-overlapping
occurrence of `pat`, scanning left to right; the replacement text is not
rescanned.  (The empty-pattern case, which the source never uses, is a
no-match.) -/
def replaceAll (hay pat rep : List Char) : List Char :=
  replaceAllFuel hay.length hay pat rep

/-- String wrapper for `replaceAll`. -/
def strReplace (s pat rep : String) : String := ⟨replaceAll s.data pat.data rep.data⟩

/-- Model of Rust `str::trim`: drop leading and trailing whitespace. -/
def strTrim (s : String) : String :=
  ⟨((s.data.dropWhile Char.isWhitespace).reverse.dropWhile Char.isWhitespace).reverse⟩

/-- Model of Rust `str::trim_matches('%')`: drop leading **and** trailing
`'%'` characters (`trim_matches` is symmetric in Rust). -/
def trimMatchesPct (s : String) : String :=
  ⟨((s.data.dropWhile (fun c => c == '%')).reverse.dropWhile (fun c => c == '%')).reverse⟩

/-- `s.replace(",", "")` — strip thousands-separator commas. -/
def stripCommas (s : String) : String := strReplace s "," ""

/-! ### Byte-level text codec

Rust `String::from_utf8` / `str::as_bytes` are modelled by an injective
character-code encoding: encoding is total, decoding fails exactly on byte
lists that are not valid encodings, mirroring the partiality of UTF-8
decoding that `try_decrypt_token` depends on. -/

/-- Model of `str::as_bytes`: the code points of the string. -/
def strToBytes (s : String) : List Nat := s.data.map Char.toNat

/-- Model of `String::from_utf8`: succeeds exactly on lists of valid
character codes. -/
def bytesToStr (bs : List Nat) : Option String :=
  if _h : ∀ b ∈ bs, Nat.isValidChar b then some ⟨bs.map Char.ofNat⟩ else none

/-! ### Cipher model (src/crypto.rs, external `aes_gcm_siv` crate)

Modelled from the spec: the AES-128-GCM-SIV cipher used by
`create_token`/`try_decrypt_token` lives in the external `aes_gcm_siv`
crate, not in this repository.  It is modelled by an executable AEAD
cipher with the combined layout the spec states (ciphertext = body ‖ tag):
encryption appends a tag derived from key, nonce and plaintext, and
decryption recomputes and checks the tag, failing on any mismatch. -/

/-- Authentication tag of the modelled AEAD cipher. -/
def tagM (key nonce pt : List Nat) : Nat :=
  key.sum + 2 * nonce.sum + 3 * pt.sum + pt.length

/-- Modelled AEAD encryption: body followed by the authentication tag. -/
def encryptM (key nonce pt : List Nat) : List Nat :=
  pt ++ [tagM key nonce pt]

/-- Modelled AEAD decryption: check the trailing tag, return the body. -/
def decryptM (key nonce ct : List Nat) : Option (List Nat) :=
  match ct.getLast? with
  | none => none
  | some t => if tagM key nonce ct.dropLast = t then some ct.dropLast else none

/-! ### Error taxonomy (src/crypto.rs, src/api.rs, src/api/gradebook.rs) -/

/-- `CipherError` of src/crypto.rs. -/
inductive CipherError
  | length
  | decoding
deriving DecidableEq

/-- `CryptoError` of src/crypto.rs.  `cryptError` is the
authentication-failure condition (`aes_gcm_siv::aead::Error`). -/
inductive CryptoError
  | invalidCipher (e : CipherError)
  | cryptError
  | invalidKey
  | nokey
deriving DecidableEq

/-- `GradebookError` of src/api/gradebook.rs. -/
inductive GradebookError
  | missingField (f : String)
  | numParsing
  | invalidPointString
deriving DecidableEq

/-- `ApiError` of src/api.rs (feature-gated variants omitted). -/
inductive ApiError
  | parsing (msg : String)
  | gradebook (e : GradebookError)
  | attendance
  | network
  | studentVue (msg : String)
  | emptyCredentials
  | unknown
  | crypto (e : CryptoError)
  | maintainance
  | invalidRoot
  | invalidCredentials
  | accessKey
  | expiredKey
  | noSecureResponse
deriving DecidableEq

/-! ### Session record and token codec (src/crypto.rs) -/

/-- `AuthToken` of src/crypto.rs.  `expiry` is the `u128` millisecond
timestamp, modelled as `Nat`. -/
structure AuthToken where
  username : String
  password : String
  cookie : Option String
  expiry : Nat
  district_url : String
deriving DecidableEq

/-- `create_token` of src/crypto.rs: encrypt the serialized record under
the process-wide key with a fresh 96-bit nonce and return
nonce ‖ ciphertext ‖ tag.  The key (loaded once from the `ENKEY`
environment variable) and the per-call random nonce are explicit
parameters of the model. -/
def create_token (key nonce : List Nat) (cipher_text : String) : List Nat :=
  nonce ++ encryptM key nonce (strToBytes cipher_text)

/-- `try_decrypt_token` of src/crypto.rs: reject inputs of length ≤ 12,
split off the 12-byte nonce, decrypt-and-authenticate the remainder and
decode the plaintext as text. -/
def try_decrypt_token (key : List Nat) (encrypted : List Nat) : Except CryptoError String :=
  if encrypted.length ≤ 12 then
    .error (.invalidCipher .length)
  else
    match decryptM key (encrypted.take 12) (encrypted.drop 12) with
    | none => .error .cryptError
    | some pt =>
      match bytesToStr pt with
      | none => .error (.invalidCipher .decoding)
      | some s => .ok s

/-! ### Session-record serialization (serde_json, modelled)

Modelled from the spec: `serde_json` (external crate) serializes the
record field by field — username, password, optional cookie, the 128-bit
expiry rendered through its decimal digits (the `string` serde adapter of
src/crypto.rs), district endpoint — and deserialization is strict: it
fails on any malformed input and rejects trailing garbage. -/

/-- Character for a single decimal digit value. -/
def digitChar (d : Nat) : Char := Char.ofNat (48 + d)

/-- Numeric value of a decimal digit character. -/
def digitVal (c : Char) : Nat := c.toNat - 48

/-- Little-endian decimal rendering of a natural number. -/
def renderNat (n : Nat) : List Char := (Nat.digits 10 n).map digitChar

/-- Inverse of `renderNat`. -/
def parseDigits (cs : List Char) : Nat := Nat.ofDigits 10 (cs.map digitVal)

/-- One length-prefixed text field. -/
def strField (s : String) : List Char := renderNat s.length ++ ':' :: s.data

/-- One optional text field with a presence marker. -/
def optField : Option String → List Char
  | none => ['0']
  | some s => '1' :: strField s

/-- One numeric field, decimal digits with a terminator. -/
def natField (n : Nat) : List Char := renderNat n ++ [';']

/-- Serialize a session record (model of `serde_json::to_string`). -/
def serializeAuthToken (t : AuthToken) : String :=
  ⟨strField t.username ++ strField t.password ++ optField t.cookie ++
    natField t.expiry ++ strField t.district_url⟩

/-- Expect one given character at the head of the input. -/
def parseExpect (c : Char) (cs : List Char) : Option (List Char) :=
  match cs with
  | [] => none
  | h :: t => if h = c then some t else none

/-- Parse one length-prefixed text field. -/
def parseStrField (cs : List Char) : Option (String × List Char) :=
  match parseExpect ':' (cs.dropWhile Char.isDigit) with
  | none => none
  | some rest =>
    let n := parseDigits (cs.takeWhile Char.isDigit)
    if n ≤ rest.length then some (⟨rest.take n⟩, rest.drop n) else none

/-- Parse one optional text field. -/
def parseOptField (cs : List Char) : Option (Option String × List Char) :=
  match cs with
  | [] => none
  | h :: t =>
    if h = '0' then some (none, t)
    else if h = '1' then (parseStrField t).map fun p => (some p.1, p.2)
    else none

/-- Parse one numeric field. -/
def parseNatField (cs : List Char) : Option (Nat × List Char) :=
  match parseExpect ';' (cs.dropWhile Char.isDigit) with
  | none => none
  | some rest => some (parseDigits (cs.takeWhile Char.isDigit), rest)

/-- Deserialize a session record (model of `serde_json::from_str`),
rejecting trailing garbage. -/
def deserializeAuthToken (s : String) : Option AuthToken :=
  match parseStrField s.data with
  | none => none
  | some (u, r1) =>
    match parseStrField r1 with
    | none => none
    | some (p, r2) =>
      match parseOptField r2 with
      | none => none
      | some (ck, r3) =>
        match parseNatField r3 with
        | none => none
        | some (e, r4) =>
          match parseStrField r4 with
          | none => none
          | some (d, r5) =>
            if r5 = [] then some ⟨u, p, ck, e, d⟩ else none

/-- `encode` of the spec: serialize the record and encrypt it
(`serde_json::to_string` + `create_token`, as in `get_data` of
src/main.rs). -/
def encodeToken (key nonce : List Nat) (t : AuthToken) : List Nat :=
  create_token key nonce (serializeAuthToken t)

/-- `decode` of the spec: decrypt and deserialize (`try_decrypt_token` +
`serde_json::from_str`, as in the `Bearer` branch of
`from_request_parts` in src/crypto.rs). -/
def decodeToken (key : List Nat) (encrypted : List Nat) : Option AuthToken :=
  match try_decrypt_token key encrypted with
  | .error _ => none
  | .ok s => deserializeAuthToken s

/-! ### Session-record extraction (src/crypto.rs) -/

/-- `check_validity` of src/crypto.rs; the wall clock (`get_timestamp`) is
an explicit parameter. -/
def check_validity (now : Nat) (token : AuthToken) : Except ApiError AuthToken :=
  if now > token.expiry then .error .expiredKey else .ok token

/-- The `Basic` branch of `from_request_parts` in src/crypto.rs, applied
to the base64-decoded credential text: split at the first colon and
synthesize a fresh record with no cookie and a 24-hour expiry. -/
def from_request_parts_basic (now : Nat) (decoded : String) : Except ApiError AuthToken :=
  match splitOnce decoded.data ':' with
  | none => .error .invalidCredentials
  | some (u, p) =>
    .ok ⟨⟨u⟩, ⟨p⟩, none, now + 1000 * 60 * 60 * 24, "md-mcps-psv.edupoint.com"⟩

/-! ### Upstream gateway (src/api.rs, `api_request`) -/

/-- First whitespace-delimited token of a header value
(`split_whitespace().next().unwrap_or_default()` in `api_request`). -/
def firstWhitespaceToken (s : String) : String :=
  ⟨(s.data.dropWhile Char.isWhitespace).takeWhile (fun c => !c.isWhitespace)⟩

/-- The cookie-collection loop of `api_request` (src/api.rs lines
127-136): every `Set-Cookie` header value is truncated to its first
whitespace-delimited token and the tokens are accumulated, each followed
by a separator space. -/
def collectCookies (headers : List String) : String :=
  headers.foldl (fun cookies h => cookies ++ (firstWhitespaceToken h ++ " ")) ""

/-- The cookie-update step of `api_request` (src/api.rs lines 138-140):
if the collected string is non-empty it replaces the session cookie. -/
def updateCookieFromHeaders (headers : List String) (token : AuthToken) : AuthToken :=
  let cookies := collectCookies headers
  if cookies.isEmpty then token else { token with cookie := some cookies }

/-- Reformulation of the cookie collection: each header's first
whitespace-delimited token followed by a separator space, concatenated in
header order. -/
def joinTokens : List String → String
  | [] => ""
  | h :: t => (firstWhitespaceToken h ++ " ") ++ joinTokens t

/-- `RT_ERROR` of src/api.rs: the upstream error envelope. -/
structure RtError where
  error_message : String
deriving DecidableEq

/-- The result-classification tail of `api_request` (src/api.rs lines
151-169): if the raw body contains the literal marker `ERROR_MESSAGE=`,
re-parse the inner result string as an `RT_ERROR`; a message containing
`.dll` folds to the generic unknown condition, any other message is
propagated verbatim; without the marker the inner result is returned
unchanged.  `parseRt` stands for the `quick_xml` deserialization of
`RT_ERROR` (external crate), given as an explicit parameter; its `DeError`
payload is modelled as a message string. -/
def classifyApiResult (raw inner : String) (parseRt : String → Except String RtError) :
    Except ApiError String :=
  if strContains raw "ERROR_MESSAGE=" then
    match parseRt inner with
    | .error e => .error (.parsing e)
    | .ok err =>
      if strContains err.error_message ".dll" then .error .unknown
      else .error (.studentVue err.error_message)
  else .ok inner

/-! ### Gradebook transformer (src/api/gradebook.rs)

Numeric model: upstream sends `f32` values as free text.  An `f32` is
modelled by `FVal` — an exact rational for finite values plus the two
infinities and NaN — with IEEE comparison semantics (NaN compares false,
+∞ is above every threshold).  The thresholds 89.5, 79.5, 69.5, 59.5 are
exactly representable in `f32`, so the rational comparisons agree with
the `f32` ones.  Rust `str::parse::<f32>` is modelled by `parseFVal`:
plain decimal forms with optional sign and fraction, plus the literal
`inf`/`-inf`/`+inf`/`infinity`/`NaN`/`nan` spellings; exponent forms and
rounding of long decimals are outside the model (no claim exercises
them). -/

/-- Model of an `f32` value. -/
inductive FVal
  | finite (q : ℚ)
  | posInf
  | negInf
  | nan
deriving DecidableEq

/-- IEEE `>=` against a finite threshold: NaN and -∞ compare false,
+∞ compares true. -/
def FVal.geQ : FVal → ℚ → Bool
  | finite q, t => decide (t ≤ q)
  | posInf, _ => true
  | negInf, _ => false
  | nan, _ => false

/-- `f32::is_finite`. -/
def FVal.isFinite : FVal → Bool
  | finite _ => true
  | _ => false

/-- Division by the constant 100.0 (exact on finite values; infinities
and NaN are preserved, as in IEEE arithmetic).  Built with `mkRat` so
that it evaluates inside the kernel; `div100_finite` below proves it is
exactly division by 100. -/
def FVal.div100 : FVal → FVal
  | finite q => finite (mkRat q.num (q.den * 100))
  | v => v

/-- Digit run to number, big-endian. -/
def digitsToNat (cs : List Char) : Nat :=
  cs.foldl (fun a c => a * 10 + digitVal c) 0

/-- Unsigned decimal: digits with an optional fractional part; at least
one digit overall; nothing else. -/
def parseUnsignedDec (cs : List Char) : Option ℚ :=
  let ip := cs.takeWhile Char.isDigit
  match cs.dropWhile Char.isDigit with
  | [] => if ip.isEmpty then none else some (digitsToNat ip)
  | '.' :: fr =>
    let fp := fr.takeWhile Char.isDigit
    if fr.dropWhile Char.isDigit = [] ∧ ¬(ip.isEmpty ∧ fp.isEmpty) then
      some (mkRat (digitsToNat ip * 10 ^ fp.length + digitsToNat fp) (10 ^ fp.length))
    else none
  | _ => none

/-- Model of `str::parse::<f32>` (see the section comment). -/
def parseFVal (s : String) : Option FVal :=
  if s.data = "inf".data ∨ s.data = "+inf".data ∨ s.data = "infinity".data then some .posInf
  else if s.data = "-inf".data ∨ s.data = "-infinity".data then some .negInf
  else if s.data = "NaN".data ∨ s.data = "nan".data then some .nan
  else
    match s.data with
    | '-' :: rest => (parseUnsignedDec rest).map fun q => .finite (-q)
    | '+' :: rest => (parseUnsignedDec rest).map .finite
    | cs => (parseUnsignedDec cs).map .finite

/-- `letter_grade` recomputation thresholds of src/api/gradebook.rs lines
121-129 (the `match grade` expression). -/
def letterOf (grade : FVal) : String :=
  if grade.geQ 89.5 then "A"
  else if grade.geQ 79.5 then "B"
  else if grade.geQ 69.5 then "C"
  else if grade.geQ 59.5 then "D"
  else if grade.isFinite then "E"
  else "N/A"

/-- Character numericity test of `lg.chars().any(char::is_numeric)`,
modelled as the decimal-digit test (the upstream letter strings are
ASCII). -/
def isNumericChar (c : Char) : Bool := c.isDigit

/-- The letter-grade logic of src/api/gradebook.rs lines 118-130: if the
upstream letter string contains a digit, recompute the letter from the
parsed grade; otherwise pass it through unchanged. -/
def computeLetterGrade (grade : FVal) (lg : String) : String :=
  if lg.data.any isNumericChar then letterOf grade else lg

/-- `AssignmentGradeCalc` of src/api/gradebook.rs (the fields the
transformer reads). -/
structure AGCX where
  assignment_grade_calc_type : String
  weight : String
  points : String
  points_possible : String
deriving DecidableEq

/-- Output `Category` of src/api/gradebook.rs. -/
structure Category where
  weight : FVal
  points_earned : FVal
  points_possible : FVal
deriving DecidableEq

/-- Weight normalization of src/api/gradebook.rs line 143:
`agc.weight.trim_matches('%').parse::<f32>()? / 100.0`. -/
def parseWeight (w : String) : Option FVal :=
  (parseFVal (trimMatchesPct w)).map FVal.div100

/-- The claim's literal reading of the weight normalization, for
comparison: strip one trailing percent sign only. -/
def stripTrailingPctSpec (s : String) : String :=
  if s.data.getLast? = some '%' then ⟨s.data.dropLast⟩ else s

/-- The category loop of src/api/gradebook.rs lines 134-152: skip `TOTAL`
entries; for every other entry parse weight (percent-trimmed, /100) and
the two point fields (comma-stripped); any parse failure is a hard
`NumParsing` error.  The `HashMap` is modelled as the association list of
entries in input order. -/
def processCategories : List AGCX → Except GradebookError (List (String × Category))
  | [] => .ok []
  | agc :: rest =>
    if agc.assignment_grade_calc_type = "TOTAL" then processCategories rest
    else
      match parseWeight agc.weight, parseFVal (stripCommas agc.points),
          parseFVal (stripCommas agc.points_possible) with
      | some w, some pe, some pp =>
        (processCategories rest).map
          (fun t => (agc.assignment_grade_calc_type, ⟨w, pe, pp⟩) :: t)
      | _, _, _ => .error .numParsing

/-- `Assignment` attributes of src/api/gradebook.rs read by the
transformer. -/
structure AssignmentX where
  measure : String
  assignment_type : String
  score_cal_value : Option String
  score_max_value : Option String
  points : String
  notes : String
deriving DecidableEq

/-- Output `Assignment` of src/api/gradebook.rs. -/
structure AssignmentOut where
  name : String
  kind : String
  points_earned : FVal
  points_possible : FVal
  notes : String
deriving DecidableEq

/-- `unescape_xml` of src/api/gradebook.rs lines 184-190: the five entity
replacements in their fixed order. -/
def unescape_xml (inp : String) : String :=
  strReplace (strReplace (strReplace (strReplace (strReplace inp
    "&apos;" "'") "&quot;" "\"") "&amp;" "&") "&lt;" "<") "&gt;" ">"

/-- Points-earned of src/api/gradebook.rs lines 156-159:
`score_cal_value`, comma-stripped, with NaN as the no-score sentinel. -/
def assignPointsEarned (a : AssignmentX) : FVal :=
  match a.score_cal_value with
  | none => .nan
  | some x => (parseFVal (stripCommas x)).getD .nan

/-- Attempt (a): `ScoreMaxValue`, comma-stripped. -/
def attemptScoreMax (a : AssignmentX) : Option FVal :=
  a.score_max_value.bind fun x => parseFVal (stripCommas x)

/-- Attempt (b): the substring after the first `/` of `Points`, trimmed
then comma-stripped. -/
def attemptSlash (a : AssignmentX) : Option FVal :=
  (splitOnce a.points.data '/').bind fun pr =>
    parseFVal (stripCommas (strTrim ⟨pr.2⟩))

/-- Attempt (c): `Points` with the phrase `Points Possible` removed,
comma-stripped, trimmed. -/
def attemptPlain (a : AssignmentX) : Option FVal :=
  parseFVal (strTrim (stripCommas (strReplace a.points "Points Possible" "")))

/-- Points-possible chain of src/api/gradebook.rs lines 161-182. -/
def assignPointsPossible (a : AssignmentX) : Option FVal :=
  (attemptScoreMax a).orElse fun _ =>
    if strContains a.points "/" then attemptSlash a else attemptPlain a

/-- The assignment loop of src/api/gradebook.rs lines 154-199: an
assignment whose points-possible chain fails is skipped; otherwise its
name is unescaped and the parsed points recorded. -/
def processAssignments : List AssignmentX → List AssignmentOut
  | [] => []
  | a :: rest =>
    match assignPointsPossible a with
    | none => processAssignments rest
    | some pp =>
      ⟨unescape_xml a.measure, a.assignment_type, assignPointsEarned a, pp, a.notes⟩ ::
        processAssignments rest

/-- `Mark` of src/api/gradebook.rs (the fields the transformer reads). -/
structure MarkX where
  calculated_score_string : String
  calculated_score_raw : String
  assignment_grade_calc : Option (List AGCX)
  assignments : List AssignmentX
deriving DecidableEq

/-- `Course` of src/api/gradebook.rs (the fields the transformer reads). -/
structure CourseX where
  title : String
  staff : String
  image_type : String
  mark : Option MarkX
deriving DecidableEq

/-- Output `Class` of src/api/gradebook.rs. -/
structure ClassOut where
  name : String
  teacher : String
  category : String
  grade : FVal
  letter_grade : String
  categories : List (String × Category)
  assignments : List AssignmentOut
deriving DecidableEq

/-- The per-course closure of `TryFrom<Gradebook> for Response`
(src/api/gradebook.rs lines 103-210): a course without a mark degrades to
the zero-grade placeholder; otherwise the raw score must parse (hard
error), the letter grade is computed, the categories are processed (hard
error on failure) and the assignments collected. -/
def buildClass (c : CourseX) : Except GradebookError ClassOut :=
  match c.mark with
  | none => .ok ⟨c.title, c.staff, c.image_type, .finite 0, "N/A", [], []⟩
  | some mark =>
    match parseFVal mark.calculated_score_raw with
    | none => .error .numParsing
    | some grade =>
      match processCategories (mark.assignment_grade_calc.getD []) with
      | .error e => .error e
      | .ok cats =>
        .ok ⟨c.title, c.staff, c.image_type, grade,
          computeLetterGrade grade mark.calculated_score_string,
          cats, processAssignments mark.assignments⟩

/-! ## Supporting lemmas -/

theorem replaceAllFuel_nil : ∀ (n : Nat) (pat rep : List Char),
    replaceAllFuel n [] pat rep = [] := by
  intro n pat rep
  cases n <;> rfl

theorem replaceAllFuel_congr :
    ∀ (n : Nat) (hay : List Char) (m : Nat) (pat rep : List Char),
      hay.length ≤ n → hay.length ≤ m →
      replaceAllFuel n hay pat rep = replaceAllFuel m hay pat rep := by
  intro n
  induction n with
  | zero =>
    intro hay m pat rep hn _
    have : hay = [] := List.length_eq_zero.mp (Nat.le_zero.mp hn)
    subst this
    rw [replaceAllFuel_nil, replaceAllFuel_nil]
  | succ n ih =>
    intro hay m pat rep hn hm
    cases hay with
    | nil => rw [replaceAllFuel_nil, replaceAllFuel_nil]
    | cons h t =>
      rcases m with _ | m'
      · exact absurd hm (by simp)
      · rw [replaceAllFuel, replaceAllFuel]
        by_cases hc : pat ≠ [] ∧ pat.isPrefixOf (h :: t) = true
        · rw [if_pos hc, if_pos hc]
          have hp : 0 < pat.length := List.length_pos.mpr hc.1
          have hd : ((h :: t).drop pat.length).length ≤ n := by
            rw [List.length_drop]
            simp only [List.length_cons] at hn ⊢
            omega
          have hd' : ((h :: t).drop pat.length).length ≤ m' := by
            rw [List.length_drop]
            simp only [List.length_cons] at hm ⊢
            omega
          rw [ih _ m' pat rep hd hd']
        · rw [if_neg hc, if_neg hc]
          have ht : t.length ≤ n := by
            simp only [List.length_cons] at hn
            omega
          have ht' : t.length ≤ m' := by
            simp only [List.length_cons] at hm
            omega
          rw [ih t m' pat rep ht ht']

theorem replaceAll_cons_match {h : Char} {t pat : List Char} (rep : List Char)
    (hne : pat ≠ []) (hpre : pat.isPrefixOf (h :: t) = true) :
    replaceAll (h :: t) pat rep =
      rep ++ replaceAll ((h :: t).drop pat.length) pat rep := by
  rw [replaceAll, replaceAll]
  have : (h :: t).length = t.length + 1 := rfl
  rw [this, replaceAllFuel, if_pos ⟨hne, hpre⟩]
  have hp : 0 < pat.length := List.length_pos.mpr hne
  congr 1
  apply replaceAllFuel_congr
  · rw [List.length_drop]
    simp only [List.length_cons]
    omega
  · exact Nat.le_refl _

theorem replaceAll_cons_nomatch {h : Char} {t pat : List Char} (rep : List Char)
    (hno : ¬(pat ≠ [] ∧ pat.isPrefixOf (h :: t) = true)) :
    replaceAll (h :: t) pat rep = h :: replaceAll t pat rep := by
  rw [replaceAll, replaceAll]
  have : (h :: t).length = t.length + 1 := rfl
  rw [this, replaceAllFuel, if_neg hno]

theorem div100_finite (q : ℚ) : (FVal.finite q).div100 = .finite (q / 100) := by
  simp only [FVal.div100, Rat.mkRat_eq_div]
  congr 1
  push_cast
  rw [← div_div, Rat.num_div_den]

theorem takeWhile_append_all {p : Char → Bool} :
    ∀ (l1 l2 : List Char), (∀ c ∈ l1, p c = true) →
      (l1 ++ l2).takeWhile p = l1 ++ l2.takeWhile p := by
  intro l1
  induction l1 with
  | nil => intro l2 _; simp
  | cons a t ih =>
    intro l2 h
    have ha : p a = true := h a (List.mem_cons_self a t)
    simp [List.takeWhile_cons, ha, ih l2 (fun c hc => h c (List.mem_cons_of_mem a hc))]

theorem dropWhile_append_all {p : Char → Bool} :
    ∀ (l1 l2 : List Char), (∀ c ∈ l1, p c = true) →
      (l1 ++ l2).dropWhile p = l2.dropWhile p := by
  intro l1
  induction l1 with
  | nil => intro l2 _; simp
  | cons a t ih =>
    intro l2 h
    have ha : p a = true := h a (List.mem_cons_self a t)
    simp [List.dropWhile_cons, ha, ih l2 (fun c hc => h c (List.mem_cons_of_mem a hc))]

theorem digitChar_isDigit {d : Nat} (h : d < 10) : (digitChar d).isDigit = true := by
  interval_cases d <;> decide

theorem digitVal_digitChar {d : Nat} (h : d < 10) : digitVal (digitChar d) = d := by
  interval_cases d <;> decide

theorem renderNat_all_digits (n : Nat) : ∀ c ∈ renderNat n, c.isDigit = true := by
  intro c hc
  rw [renderNat, List.mem_map] at hc
  obtain ⟨d, hd, rfl⟩ := hc
  exact digitChar_isDigit (Nat.digits_lt_base (by norm_num) hd)

theorem map_digitVal_digitChar :
    ∀ (l : List Nat), (∀ d ∈ l, d < 10) → (l.map digitChar).map digitVal = l := by
  intro l
  induction l with
  | nil => intro _; rfl
  | cons d t ih =>
    intro h
    simp only [List.map_cons, List.cons.injEq]
    exact ⟨digitVal_digitChar (h d (List.mem_cons_self d t)),
      ih (fun x hx => h x (List.mem_cons_of_mem d hx))⟩

theorem parseDigits_renderNat (n : Nat) : parseDigits (renderNat n) = n := by
  rw [parseDigits, renderNat,
    map_digitVal_digitChar _ (fun d hd => Nat.digits_lt_base (by norm_num) hd)]
  exact Nat.ofDigits_digits 10 n

theorem parseStrField_strField (s : String) (rest : List Char) :
    parseStrField (strField s ++ rest) = some (s, rest) := by
  have hall : ∀ c ∈ renderNat s.length, Char.isDigit c = true := renderNat_all_digits s.length
  rw [strField, parseStrField, List.append_assoc, List.cons_append,
    takeWhile_append_all _ _ hall, dropWhile_append_all _ _ hall]
  have hc : (':' : Char).isDigit = false := rfl
  simp only [List.takeWhile_cons, List.dropWhile_cons, hc, Bool.false_eq_true, if_false,
    List.append_nil, parseExpect, if_pos, parseDigits_renderNat]
  have hlen : s.length = s.data.length := rfl
  rw [if_pos (by rw [hlen, List.length_append]; omega)]
  rw [hlen, List.take_left, List.drop_left]

theorem parseOptField_optField (o : Option String) (rest : List Char) :
    parseOptField (optField o ++ rest) = some (o, rest) := by
  cases o with
  | none => simp [optField, parseOptField]
  | some s =>
    simp only [optField, parseOptField, List.cons_append]
    simp [parseStrField_strField]

theorem parseNatField_natField (n : Nat) (rest : List Char) :
    parseNatField (natField n ++ rest) = some (n, rest) := by
  have hall : ∀ c ∈ renderNat n, Char.isDigit c = true := renderNat_all_digits n
  rw [natField, parseNatField, List.append_assoc,
    takeWhile_append_all _ _ hall, dropWhile_append_all _ _ hall]
  have hc : (';' : Char).isDigit = false := rfl
  simp only [List.cons_append, List.nil_append, List.takeWhile_cons, List.dropWhile_cons, hc,
    Bool.false_eq_true, if_false, List.append_nil, parseExpect, parseDigits_renderNat]
  simp

theorem deserializeAuthToken_serializeAuthToken (t : AuthToken) :
    deserializeAuthToken (serializeAuthToken t) = some t := by
  obtain ⟨u, p, ck, e, d⟩ := t
  rw [serializeAuthToken, deserializeAuthToken, data_mk]
  simp only [List.append_assoc]
  rw [parseStrField_strField]
  simp only []
  rw [parseStrField_strField]
  simp only []
  rw [parseOptField_optField]
  simp only []
  rw [parseNatField_natField]
  simp only []
  rw [show strField d = strField d ++ [] from (List.append_nil _).symm,
    parseStrField_strField]
  simp

theorem bytesToStr_strToBytes (s : String) : bytesToStr (strToBytes s) = some s := by
  rw [strToBytes, bytesToStr]
  have hv : ∀ b ∈ s.data.map Char.toNat, Nat.isValidChar b := by
    intro b hb
    rw [List.mem_map] at hb
    obtain ⟨c, _, rfl⟩ := hb
    exact c.valid
  rw [dif_pos hv]
  congr 1
  obtain ⟨l⟩ := s
  rw [data_mk, List.map_map]
  congr 1
  have : ∀ c : Char, (Char.ofNat ∘ Char.toNat) c = id c := fun c => Char.ofNat_toNat c
  rw [funext this, List.map_id]

theorem decryptM_encryptM (key nonce pt : List Nat) :
    decryptM key nonce (encryptM key nonce pt) = some pt := by
  rw [decryptM, encryptM]
  rw [List.getLast?_concat, List.dropLast_concat]
  simp

/-! ## C1: token round-trip -/

/-- C1: for every session record (any username, password, optional
cookie, expiry, district endpoint), decoding an encoded token under the
same process-wide key yields the original record:
`decode (encode r) = some r`, where encoding serializes the record and
encrypts it with a fresh 96-bit (12-byte) per-call nonce, and decoding
decrypts and deserializes under the same key. -/
theorem c1_token_roundtrip (key nonce : List Nat) (t : AuthToken)
    (hn : nonce.length = 12) :
    decodeToken key (encodeToken key nonce t) = some t := by
  rw [encodeToken, create_token, decodeToken, try_decrypt_token]
  rw [if_neg (by simp [encryptM, hn])]
  rw [show (12 : Nat) = nonce.length from hn.symm, List.take_left, List.drop_left,
    decryptM_encryptM]
  simp only [bytesToStr_strToBytes, deserializeAuthToken_serializeAuthToken]

/-- Witness for C1 at a concrete record, key and nonce. -/
theorem c1_token_roundtrip_witness :
    decodeToken [3, 1, 4] (encodeToken [3, 1, 4] (List.replicate 12 0)
        ⟨"user", "hunter:2", some "ASP.NET_SessionId=abc;", 1730000000000, "md-mcps-psv.edupoint.com"⟩) =
      some ⟨"user", "hunter:2", some "ASP.NET_SessionId=abc;", 1730000000000, "md-mcps-psv.edupoint.com"⟩ :=
  c1_token_roundtrip [3, 1, 4] (List.replicate 12 0) _ (by decide)

/-! ## C6: decode error conditions -/

/-- C6 counterexample: an input of exactly the nonce size (12 bytes) is
not shorter than the nonce size, yet `try_decrypt_token` fails with the
`Length` condition (the source checks `encrypted.len() <= 12`, not `<`),
so "fails with the Length condition exactly when the input is shorter
than the nonce size" is false as stated. -/
theorem c6_length_counterexample :
    try_decrypt_token [] (List.replicate 12 0) =
        .error (.invalidCipher .length) ∧
      ¬((List.replicate 12 (0 : Nat)).length < 12) :=
  ⟨rfl, by decide⟩

/-- C6 (amended): `decode` fails with the `Length` condition exactly when
the input is at most the nonce size (≤ 12 bytes); a strictly longer input
proceeds to decryption, where tag-check failure yields the
authentication-failure condition, authenticated plaintext that is not
valid text yields the `Decoding` condition, and valid text is returned;
the three error kinds are pairwise distinct. -/
theorem c6_decode_error_conditions (key enc : List Nat) :
    (try_decrypt_token key enc = .error (.invalidCipher .length) ↔ enc.length ≤ 12) ∧
    (12 < enc.length →
      (decryptM key (enc.take 12) (enc.drop 12) = none →
        try_decrypt_token key enc = .error .cryptError) ∧
      (∀ pt, decryptM key (enc.take 12) (enc.drop 12) = some pt →
        bytesToStr pt = none →
        try_decrypt_token key enc = .error (.invalidCipher .decoding)) ∧
      (∀ pt s, decryptM key (enc.take 12) (enc.drop 12) = some pt →
        bytesToStr pt = some s →
        try_decrypt_token key enc = .ok s)) ∧
    ((CryptoError.invalidCipher .length ≠ .cryptError) ∧
      (CryptoError.invalidCipher .length ≠ .invalidCipher .decoding) ∧
      (CryptoError.cryptError ≠ .invalidCipher .decoding)) := by
  refine ⟨⟨fun h => ?_, fun h => ?_⟩, fun hlen => ⟨fun hd => ?_, fun pt hd hb => ?_,
    fun pt s hd hb => ?_⟩, by decide, by decide, by decide⟩
  · by_contra hlen
    rw [try_decrypt_token, if_neg hlen] at h
    rcases hd : decryptM key (enc.take 12) (enc.drop 12) with _ | pt
    · rw [hd] at h; simp at h
    · rw [hd] at h
      rcases hb : bytesToStr pt with _ | s
      · simp [hb] at h
      · simp [hb] at h
  · rw [try_decrypt_token, if_pos h]
  · rw [try_decrypt_token, if_neg (by omega), hd]
  · rw [try_decrypt_token, if_neg (by omega), hd]
    simp [hb]
  · rw [try_decrypt_token, if_neg (by omega), hd]
    simp [hb]

/-- Witness for C6 exercising the Length branch, the
authentication-failure branch, the text-decoding branch and the success
branch at concrete inputs. -/
theorem c6_decode_error_conditions_witness :
    try_decrypt_token [1] [0, 1, 2] = .error (.invalidCipher .length) ∧
    try_decrypt_token [1] (List.replicate 13 0) = .error .cryptError ∧
    try_decrypt_token [] (List.replicate 12 0 ++ encryptM [] (List.replicate 12 0) [55296]) =
      .error (.invalidCipher .decoding) ∧
    try_decrypt_token [] (List.replicate 12 0 ++ encryptM [] (List.replicate 12 0) [97]) =
      .ok "a" :=
  ⟨(c6_decode_error_conditions [1] [0, 1, 2]).1.mpr (by decide),
   ((c6_decode_error_conditions [1] (List.replicate 13 0)).2.1 (by decide)).1 (by decide),
   (((c6_decode_error_conditions [] _).2.1 (by decide)).2.1 [55296] (by decide) (by decide)),
   (((c6_decode_error_conditions [] _).2.1 (by decide)).2.2 [97] "a" (by decide) (by decide))⟩

/-! ## C7: expiry validity check -/

/-- C7: a correctly decoded record whose expiry is strictly before the
current wall-clock timestamp (milliseconds) fails the validity check with
the expired-key condition, which is distinct from the invalid-credentials
condition; a record with current time ≤ expiry passes through
unchanged. -/
theorem c7_expiry_check (now : Nat) (t : AuthToken) :
    (now > t.expiry → check_validity now t = .error .expiredKey) ∧
    (now ≤ t.expiry → check_validity now t = .ok t) ∧
    ApiError.expiredKey ≠ ApiError.invalidCredentials := by
  refine ⟨fun h => ?_, fun h => ?_, by decide⟩
  · rw [check_validity, if_pos h]
  · rw [check_validity, if_neg (by omega)]

/-- Witness for C7: an expired and an unexpired record. -/
theorem c7_expiry_check_witness :
    check_validity 1000 ⟨"u", "p", none, 999, "d"⟩ = .error .expiredKey ∧
    check_validity 999 ⟨"u", "p", none, 999, "d"⟩ = .ok ⟨"u", "p", none, 999, "d"⟩ :=
  ⟨(c7_expiry_check 1000 _).1 (by decide), (c7_expiry_check 999 _).2.1 (by decide)⟩

/-! ## C10: Basic credential extraction -/

theorem splitOnce_none_iff (sep : Char) :
    ∀ (l : List Char), splitOnce l sep = none ↔ sep ∉ l := by
  intro l
  induction l with
  | nil => simp [splitOnce]
  | cons a t ih =>
    rw [splitOnce]
    by_cases ha : a = sep
    · subst ha; simp
    · rw [if_neg ha, Option.map_eq_none', ih]
      constructor
      · intro hn hmem
        rcases List.mem_cons.mp hmem with h1 | h1
        · exact ha h1.symm
        · exact hn h1
      · exact fun hn h1 => hn (List.mem_cons_of_mem _ h1)

theorem splitOnce_some (sep : Char) :
    ∀ (l u p : List Char), splitOnce l sep = some (u, p) →
      l = u ++ sep :: p ∧ sep ∉ u := by
  intro l
  induction l with
  | nil => intro u p h; simp [splitOnce] at h
  | cons a t ih =>
    intro u p h
    rw [splitOnce] at h
    by_cases ha : a = sep
    · subst ha
      rw [if_pos rfl] at h
      obtain ⟨rfl, rfl⟩ : u = [] ∧ p = t := by
        have h' := Option.some.inj h
        exact ⟨(Prod.mk.injEq _ _ _ _ ▸ h').1.symm, (Prod.mk.injEq _ _ _ _ ▸ h').2.symm⟩
      simp
    · rw [if_neg ha] at h
      rcases ho : splitOnce t sep with _ | pr
      · rw [ho] at h; simp at h
      · rw [ho] at h
        obtain ⟨pr1, pr2⟩ := pr
        simp only [Option.map_some'] at h
        have h1 : a :: pr1 = u := congrArg Prod.fst (Option.some.inj h)
        have h2 : pr2 = p := congrArg Prod.snd (Option.some.inj h)
        subst h1
        subst h2
        obtain ⟨ht, hnot⟩ := ih pr1 pr2 ho
        refine ⟨by rw [ht, List.cons_append], fun hmem => ?_⟩
        rcases List.mem_cons.mp hmem with h1 | h1
        · exact ha h1.symm
        · exact hnot h1

/-- C10: the Basic credential path splits the base64-decoded text at its
first colon only: text without a colon is rejected with the
invalid-credentials condition; otherwise the username is everything
before the first colon (and so contains no colon), the password is
everything after it (and may itself contain colons, witnessed
separately), the cookie is absent, the district endpoint is the fixed
one, and the expiry is the current time plus exactly 24 hours
(86400000 ms). -/
theorem c10_basic_credentials (now : Nat) (s : String) :
    (':' ∉ s.data → from_request_parts_basic now s = .error .invalidCredentials) ∧
    (∀ u p, splitOnce s.data ':' = some (u, p) →
      from_request_parts_basic now s =
          .ok ⟨⟨u⟩, ⟨p⟩, none, now + 86400000, "md-mcps-psv.edupoint.com"⟩ ∧
        s.data = u ++ ':' :: p ∧ ':' ∉ u) := by
  constructor
  · intro h
    rw [from_request_parts_basic, (splitOnce_none_iff ':' s.data).mpr h]
  · intro u p h
    have hs := splitOnce_some ':' s.data u p h
    rw [from_request_parts_basic, h]
    exact ⟨rfl, hs.1, hs.2⟩

/-- Witness for C10: a credential without a colon is rejected; one with
two colons splits at the first, leaving the second inside the
password. -/
theorem c10_basic_credentials_witness :
    from_request_parts_basic 7 "ab" = .error .invalidCredentials ∧
    from_request_parts_basic 7 "a:b:c" =
      .ok ⟨"a", "b:c", none, 7 + 86400000, "md-mcps-psv.edupoint.com"⟩ ∧
    ':' ∈ "b:c".data :=
  ⟨(c10_basic_credentials 7 "ab").1 (by decide),
   ((c10_basic_credentials 7 "a:b:c").2 ['a'] ['b', ':', 'c'] (by decide)).1,
   by decide⟩

/-! ## C2: Set-Cookie collection and replacement -/

theorem string_eq_of_data {a b : String} (h : a.data = b.data) : a = b := by
  obtain ⟨la⟩ := a
  obtain ⟨lb⟩ := b
  rw [data_mk, data_mk] at h
  rw [h]

theorem collectCookies_eq_joinTokens_aux (l : List String) :
    ∀ init : String,
      l.foldl (fun cookies h => cookies ++ (firstWhitespaceToken h ++ " ")) init =
        init ++ joinTokens l := by
  induction l with
  | nil =>
    intro init
    rw [List.foldl_nil, joinTokens]
    exact (by simp : init ++ "" = init).symm
  | cons h t ih =>
    intro init
    rw [List.foldl_cons, ih, joinTokens, String.append_assoc]

theorem collectCookies_eq_joinTokens (l : List String) :
    collectCookies l = joinTokens l := by
  rw [collectCookies, collectCookies_eq_joinTokens_aux]
  apply string_eq_of_data
  rw [String.data_append]
  rfl

/-- C2: for every list of `Set-Cookie` response header values, the
gateway truncates each value to its first whitespace-delimited token and
concatenates the tokens, each followed by a separator space, in header
order; if and only if the resulting string is non-empty it replaces the
session cookie entirely (the old cookie value does not influence the
result); with no `Set-Cookie` headers the session record is left
unchanged. -/
theorem c2_cookie_replacement (headers : List String) (t : AuthToken) :
    (collectCookies headers = joinTokens headers) ∧
    (headers = [] → updateCookieFromHeaders headers t = t) ∧
    (collectCookies headers = "" → updateCookieFromHeaders headers t = t) ∧
    (collectCookies headers ≠ "" →
      updateCookieFromHeaders headers t =
        { t with cookie := some (collectCookies headers) } ∧
      ∀ old : Option String,
        updateCookieFromHeaders headers { t with cookie := old } =
          { t with cookie := some (collectCookies headers) }) := by
  refine ⟨collectCookies_eq_joinTokens headers, fun h => ?_, fun h => ?_, fun h => ?_⟩
  · subst h
    rfl
  · rw [updateCookieFromHeaders]
    simp only [h]
    rw [if_pos (by decide)]
  · have hne : (collectCookies headers).isEmpty = false := by
      rcases he : (collectCookies headers).isEmpty with _ | _
      · rfl
      · exact absurd ((String.isEmpty_iff _).mp he) h
    constructor
    · rw [updateCookieFromHeaders]
      simp only [hne]
      rw [if_neg (by simp)]
    · intro old
      rw [updateCookieFromHeaders]
      simp only [hne]
      rw [if_neg (by simp)]

/-- Witness for C2: two headers with attributes are truncated to their
first tokens and replace a previously set cookie; no headers leave the
record unchanged. -/
theorem c2_cookie_replacement_witness :
    updateCookieFromHeaders ["sess=1; Path=/; HttpOnly", "tok=2; Expires=never"]
        ⟨"u", "p", some "old=9; ", 5, "d"⟩ =
      ⟨"u", "p", some "sess=1; tok=2; ", 5, "d"⟩ ∧
    updateCookieFromHeaders [] ⟨"u", "p", some "old=9; ", 5, "d"⟩ =
      ⟨"u", "p", some "old=9; ", 5, "d"⟩ := by
  constructor
  · have h := ((c2_cookie_replacement ["sess=1; Path=/; HttpOnly", "tok=2; Expires=never"]
      ⟨"u", "p", some "old=9; ", 5, "d"⟩).2.2.2 (by decide)).1
    rw [h]
    rfl
  · exact (c2_cookie_replacement [] _).2.1 rfl

/-! ## C5: upstream error-envelope sniffing -/

/-- C5: for every upstream response, if and only if the raw body text
contains the literal marker `ERROR_MESSAGE=` does the gateway take the
error path: the inner result string is re-parsed as an error envelope (a
parse failure propagates as a parsing error); a parsed message containing
`.dll` yields the generic unknown condition, any other parsed message is
propagated verbatim as a StudentVue-reported error; without the marker
the inner result string is returned unchanged. -/
theorem c5_error_envelope_sniffing (raw inner : String)
    (parseRt : String → Except String RtError) :
    (strContains raw "ERROR_MESSAGE=" = false →
      classifyApiResult raw inner parseRt = .ok inner) ∧
    (strContains raw "ERROR_MESSAGE=" = true →
      (∀ e, parseRt inner = .error e →
        classifyApiResult raw inner parseRt = .error (.parsing e)) ∧
      (∀ err, parseRt inner = .ok err →
        (strContains err.error_message ".dll" = true →
          classifyApiResult raw inner parseRt = .error .unknown) ∧
        (strContains err.error_message ".dll" = false →
          classifyApiResult raw inner parseRt =
            .error (.studentVue err.error_message)))) := by
  refine ⟨fun h => ?_, fun h => ⟨fun e he => ?_, fun err herr => ⟨fun hd => ?_, fun hd => ?_⟩⟩⟩
  · rw [classifyApiResult, if_neg (by simp [h])]
  · rw [classifyApiResult, if_pos h]
    simp [he]
  · rw [classifyApiResult, if_pos h]
    simp [herr, hd]
  · rw [classifyApiResult, if_pos h]
    simp [herr, hd]

/-- Witness for C5: a body without the marker passes through; with the
marker, a `.dll` message folds to unknown while another message is
propagated verbatim. -/
theorem c5_error_envelope_sniffing_witness :
    classifyApiResult "<resp>ok</resp>" "inner-xml"
        (fun _ => .ok ⟨"ignored"⟩) = .ok "inner-xml" ∧
    classifyApiResult "<resp>ERROR_MESSAGE=x</resp>" "e1"
        (fun _ => .ok ⟨"fault in svue.dll code"⟩) = .error .unknown ∧
    classifyApiResult "<resp>ERROR_MESSAGE=x</resp>" "e2"
        (fun _ => .ok ⟨"Invalid user id or password"⟩) =
      .error (.studentVue "Invalid user id or password") :=
  ⟨(c5_error_envelope_sniffing "<resp>ok</resp>" "inner-xml" _).1 (by decide),
   (((c5_error_envelope_sniffing "<resp>ERROR_MESSAGE=x</resp>" "e1" _).2 (by decide)).2
      ⟨"fault in svue.dll code"⟩ rfl).1 (by decide),
   (((c5_error_envelope_sniffing "<resp>ERROR_MESSAGE=x</resp>" "e2" _).2 (by decide)).2
      ⟨"Invalid user id or password"⟩ rfl).2 (by decide)⟩

/-! ## C4: letter-grade recomputation -/

/-- C4 counterexample: a non-finite grade does not always give "N/A".
The +∞ grade (IEEE `>=` against any finite threshold is true for +∞)
satisfies the first threshold, so a numeric upstream letter string is
recomputed to "A", not "N/A", refuting "a non-finite grade gives
N/A". -/
theorem c4_posinf_counterexample :
    computeLetterGrade FVal.posInf "85" = "A" ∧
    FVal.posInf.isFinite = false ∧ ("A" : String) ≠ "N/A" :=
  ⟨rfl, rfl, by decide⟩

/-- C4 (amended): if and only if the upstream letter string contains a
digit is the letter grade recomputed from the parsed grade by fixed
thresholds — ≥ 89.5 → "A", ≥ 79.5 → "B", ≥ 69.5 → "C", ≥ 59.5 → "D",
any other finite grade → "E"; of the non-finite grades, NaN and -∞ give
"N/A" while +∞ satisfies the first threshold and gives "A"; a letter
string containing no digit passes through unchanged. -/
theorem c4_letter_grade (grade : FVal) (lg : String) :
    (lg.data.any isNumericChar = false → computeLetterGrade grade lg = lg) ∧
    (lg.data.any isNumericChar = true →
      (∀ q : ℚ, grade = .finite q →
        ((89.5 : ℚ) ≤ q → computeLetterGrade grade lg = "A") ∧
        ((79.5 : ℚ) ≤ q → q < 89.5 → computeLetterGrade grade lg = "B") ∧
        ((69.5 : ℚ) ≤ q → q < 79.5 → computeLetterGrade grade lg = "C") ∧
        ((59.5 : ℚ) ≤ q → q < 69.5 → computeLetterGrade grade lg = "D") ∧
        (q < 59.5 → computeLetterGrade grade lg = "E")) ∧
      (grade = .posInf → computeLetterGrade grade lg = "A") ∧
      (grade = .negInf → computeLetterGrade grade lg = "N/A") ∧
      (grade = .nan → computeLetterGrade grade lg = "N/A")) := by
  constructor
  · intro h
    rw [computeLetterGrade, if_neg (by simp [h])]
  · intro h
    refine ⟨fun q hq => ?_, fun hq => ?_, fun hq => ?_, fun hq => ?_⟩
    · subst hq
      refine ⟨fun h1 => ?_, fun h1 h2 => ?_, fun h1 h2 => ?_, fun h1 h2 => ?_, fun h1 => ?_⟩
      all_goals rw [computeLetterGrade, if_pos h, letterOf]
      · rw [if_pos (by simp [FVal.geQ]; exact h1)]
      · rw [if_neg (by simp [FVal.geQ]; linarith), if_pos (by simp [FVal.geQ]; exact h1)]
      · rw [if_neg (by simp [FVal.geQ]; linarith), if_neg (by simp [FVal.geQ]; linarith),
          if_pos (by simp [FVal.geQ]; exact h1)]
      · rw [if_neg (by simp [FVal.geQ]; linarith), if_neg (by simp [FVal.geQ]; linarith),
          if_neg (by simp [FVal.geQ]; linarith), if_pos (by simp [FVal.geQ]; exact h1)]
      · rw [if_neg (by simp [FVal.geQ]; linarith), if_neg (by simp [FVal.geQ]; linarith),
          if_neg (by simp [FVal.geQ]; linarith), if_neg (by simp [FVal.geQ]; linarith),
          if_pos (show (FVal.finite q).isFinite = true from rfl)]
    · subst hq
      rw [computeLetterGrade, if_pos h]
      rfl
    · subst hq
      rw [computeLetterGrade, if_pos h]
      rfl
    · subst hq
      rw [computeLetterGrade, if_pos h]
      rfl

/-- Witness for C4 at the spec's threshold examples plus the passthrough
of a non-numeric upstream letter. -/
theorem c4_letter_grade_witness :
    computeLetterGrade (.finite 89.5) "89.5" = "A" ∧
    computeLetterGrade (.finite 89.4999) "89.4999" = "B" ∧
    computeLetterGrade (.finite 59.5) "59.5" = "D" ∧
    computeLetterGrade (.finite 59.4999) "59.4999" = "E" ∧
    computeLetterGrade .nan "0" = "N/A" ∧
    computeLetterGrade (.finite 95) "B+" = "B+" :=
  ⟨(((c4_letter_grade (.finite 89.5) "89.5").2 (by decide)).1 89.5 rfl).1 (by norm_num),
   ((((c4_letter_grade (.finite 89.4999) "89.4999").2 (by decide)).1 89.4999 rfl).2.1
     (by norm_num) (by norm_num)),
   ((((c4_letter_grade (.finite 59.5) "59.5").2 (by decide)).1 59.5 rfl).2.2.2.1
     (by norm_num) (by norm_num)),
   ((((c4_letter_grade (.finite 59.4999) "59.4999").2 (by decide)).1 59.4999 rfl).2.2.2.2
     (by norm_num)),
   (((c4_letter_grade .nan "0").2 (by decide)).2.2.2 rfl),
   ((c4_letter_grade (.finite 95) "B+").1 (by decide))⟩

/-! ## C8: category weights and points -/

/-- C8 counterexample: the source strips `%` from both ends of the weight
string (`trim_matches('%')`), not only a trailing one.  For the weight
string "%25" the claim's trailing-only strip leaves "%25", which parses
as no number (so under the claim the entry would be a malformed-weight
hard error), yet the code stores the weight fraction 0.25. -/
theorem c8_weight_counterexample :
    processCategories [⟨"HW", "%25", "10", "20"⟩] =
      .ok [("HW", ⟨.finite (mkRat 1 4), .finite 10, .finite 20⟩)] ∧
    stripTrailingPctSpec "%25" = "%25" ∧
    parseFVal "%25" = none := by
  refine ⟨by rfl, by rfl, by rfl⟩

/-- C8 (amended): for every category entry in a mark's grade-calculation
summary, the stored weight is obtained by stripping all leading and
trailing '%' characters from the weight string and dividing the parsed
number by 100, and points-earned/points-possible are parsed after
stripping commas; an entry whose type is the literal "TOTAL" is dropped
from the categories mapping; a malformed weight or malformed points value
in any non-TOTAL entry is a hard NumParsing error which aborts the whole
class transformation. -/
theorem c8_category_processing (agc : AGCX) (rest : List AGCX) :
    (agc.assignment_grade_calc_type = "TOTAL" →
      processCategories (agc :: rest) = processCategories rest) ∧
    (agc.assignment_grade_calc_type ≠ "TOTAL" →
      (∀ q pe pp, parseFVal (trimMatchesPct agc.weight) = some q →
        parseFVal (stripCommas agc.points) = some pe →
        parseFVal (stripCommas agc.points_possible) = some pp →
        processCategories (agc :: rest) =
          (processCategories rest).map
            (fun tl => (agc.assignment_grade_calc_type, ⟨q.div100, pe, pp⟩) :: tl)) ∧
      ((parseFVal (trimMatchesPct agc.weight) = none ∨
          parseFVal (stripCommas agc.points) = none ∨
          parseFVal (stripCommas agc.points_possible) = none) →
        processCategories (agc :: rest) = .error .numParsing)) ∧
    (∀ (c : CourseX) (mark : MarkX) (e : GradebookError),
      c.mark = some mark →
      mark.assignment_grade_calc = some (agc :: rest) →
      (∃ g, parseFVal mark.calculated_score_raw = some g) →
      processCategories (agc :: rest) = .error e →
      buildClass c = .error e) ∧
    (∀ q : ℚ, (FVal.finite q).div100 = .finite (q / 100)) := by
  refine ⟨fun h => ?_, fun hne => ⟨fun q pe pp hw hp hpp => ?_, fun hbad => ?_⟩,
    fun c mark e hc hagc hg herr => ?_, fun q => div100_finite q⟩
  · rw [processCategories, if_pos h]
  · rw [processCategories, if_neg hne]
    simp only [parseWeight, hw, hp, hpp, Option.map_some']
  · rw [processCategories, if_neg hne]
    rcases hbad with h1 | h1 | h1
    · simp only [parseWeight, h1, Option.map_none']
    · rcases hw : parseWeight agc.weight with _ | w
      · simp only [hw]
      · simp only [hw, h1]
    · rcases hw : parseWeight agc.weight with _ | w
      · simp only [hw]
      · rcases hp : parseFVal (stripCommas agc.points) with _ | pe
        · simp only [hw, hp]
        · simp only [hw, hp, h1]
  · obtain ⟨g, hgr⟩ := hg
    rw [buildClass, hc]
    simp only [hgr, hagc, Option.getD_some, herr]

/-- Witness for C8: the spec's `Weight="25%" → 0.25` example, a dropped
TOTAL entry, and a malformed weight aborting with the hard error. -/
theorem c8_category_processing_witness :
    processCategories [⟨"HW", "25%", "10", "20"⟩] =
      .ok [("HW", ⟨.finite (mkRat 1 4), .finite 10, .finite 20⟩)] ∧
    processCategories [⟨"TOTAL", "", "", ""⟩] = .ok [] ∧
    processCategories [⟨"HW", "junk", "10", "20"⟩] = .error .numParsing := by
  refine ⟨?_, ?_, ?_⟩
  · have h := ((c8_category_processing ⟨"HW", "25%", "10", "20"⟩ []).2.1 (by decide)).1
      (.finite 25) (.finite 10) (.finite 20) (by decide) (by decide) (by decide)
    rw [h]
    rfl
  · rw [(c8_category_processing ⟨"TOTAL", "", "", ""⟩ []).1 rfl]
    rfl
  · exact ((c8_category_processing ⟨"HW", "junk", "10", "20"⟩ []).2.1 (by decide)).2
      (Or.inl (by decide))

/-! ## C3: assignment points-possible chain -/

/-- C3: for every assignment, points-possible is resolved by trying in
order (a) `ScoreMaxValue` comma-stripped, then — only on failure — (b)
if the `Points` field contains `/`, the substring after the first `/`
(trimmed, comma-stripped), otherwise (c) the `Points` field with the
phrase "Points Possible" removed, comma-stripped and trimmed; if the
chain produces no number the assignment is omitted from the class (never
defaulted to zero) while the remaining assignments are still produced. -/
theorem c3_points_possible (a : AssignmentX) (rest : List AssignmentX) :
    (∀ v, attemptScoreMax a = some v → assignPointsPossible a = some v) ∧
    (attemptScoreMax a = none → strContains a.points "/" = true →
      assignPointsPossible a = attemptSlash a) ∧
    (attemptScoreMax a = none → strContains a.points "/" = false →
      assignPointsPossible a = attemptPlain a) ∧
    (assignPointsPossible a = none →
      processAssignments (a :: rest) = processAssignments rest) ∧
    (∀ pp, assignPointsPossible a = some pp →
      processAssignments (a :: rest) =
        ⟨unescape_xml a.measure, a.assignment_type, assignPointsEarned a, pp, a.notes⟩ ::
          processAssignments rest) := by
  refine ⟨fun v hv => ?_, fun hn hs => ?_, fun hn hs => ?_, fun hnone => ?_, fun pp hpp => ?_⟩
  · rw [assignPointsPossible, hv]
    rfl
  · rw [assignPointsPossible, hn]
    simp [Option.orElse, hs]
  · rw [assignPointsPossible, hn]
    simp [Option.orElse, hs]
  · rw [processAssignments, hnone]
  · rw [processAssignments, hpp]

/-- Witness for C3: each chain stage at a concrete assignment, plus an
unresolvable assignment being dropped while the rest of the list
survives. -/
theorem c3_points_possible_witness :
    assignPointsPossible ⟨"n", "k", none, some "1,000", "45 / 50", ""⟩ =
      some (.finite 1000) ∧
    assignPointsPossible ⟨"n", "k", none, none, "45 / 50", ""⟩ = some (.finite 50) ∧
    assignPointsPossible ⟨"n", "k", none, none, "50 Points Possible", ""⟩ =
      some (.finite 50) ∧
    processAssignments
        [⟨"n", "k", none, none, "junk", ""⟩,
         ⟨"m", "k2", some "9", none, "10 Points Possible", "note"⟩] =
      [⟨"m", "k2", .finite 9, .finite 10, "note"⟩] := by
  refine ⟨?_, ?_, ?_, ?_⟩
  · exact (c3_points_possible ⟨"n", "k", none, some "1,000", "45 / 50", ""⟩ []).1
      (.finite 1000) (by decide)
  · have h := (c3_points_possible ⟨"n", "k", none, none, "45 / 50", ""⟩ []).2.1
      rfl (by decide)
    rw [h]
    decide
  · have h := (c3_points_possible ⟨"n", "k", none, none, "50 Points Possible", ""⟩ []).2.2.1
      rfl (by decide)
    rw [h]
    decide
  · have h := (c3_points_possible ⟨"n", "k", none, none, "junk", ""⟩
      [⟨"m", "k2", some "9", none, "10 Points Possible", "note"⟩]).2.2.2.1 (by decide)
    rw [h]
    decide

/-! ## C9: order of the XML entity replacements

The supporting lemmas characterise `replaceAll` (leftmost,
non-overlapping scanning) well enough to track an occurrence of a search
string through the five replacement passes of `unescape_xml`. -/

theorem containsSub_iff (hay X : List Char) :
    containsSub hay X = true ↔ ∃ l r, hay = l ++ X ++ r := by
  induction hay with
  | nil =>
    rw [containsSub]
    constructor
    · intro h
      have hx : X = [] := of_decide_eq_true h
      exact ⟨[], [], by simp [hx]⟩
    · rintro ⟨l, r, hl⟩
      have h0 : l ++ (X ++ r) = [] := by
        rw [← List.append_assoc]
        exact hl.symm
      have : X = [] := (List.append_eq_nil.mp (List.append_eq_nil.mp h0).2).1
      simp [this]
  | cons h t ih =>
    rw [containsSub, Bool.or_eq_true]
    constructor
    · rintro (hp | hc)
      · obtain ⟨r, hr⟩ := List.isPrefixOf_iff_prefix.mp hp
        exact ⟨[], r, by rw [← hr]; simp⟩
      · obtain ⟨l, r, hlr⟩ := ih.mp hc
        exact ⟨h :: l, r, by rw [hlr]; simp⟩
    · rintro ⟨l, r, he⟩
      cases l with
      | nil =>
        left
        apply List.isPrefixOf_iff_prefix.mpr
        exact ⟨r, by rw [List.nil_append] at he; exact he.symm⟩
      | cons a l' =>
        right
        apply ih.mpr
        refine ⟨l', r, ?_⟩
        simp only [List.cons_append] at he
        exact (List.cons.injEq _ _ _ _ ▸ he).2

theorem containsSub_cons_of (h : Char) (t X : List Char)
    (hc : containsSub t X = true) : containsSub (h :: t) X = true := by
  rw [containsSub, Bool.or_eq_true]
  exact Or.inr hc

theorem containsSub_append_left (A B X : List Char)
    (h : containsSub B X = true) : containsSub (A ++ B) X = true := by
  obtain ⟨l, r, hlr⟩ := (containsSub_iff B X).mp h
  exact (containsSub_iff _ X).mpr ⟨A ++ l, r, by rw [hlr]; simp⟩

theorem replaceAll_append_no_head (p0 : Char) (ptl rep : List Char) :
    ∀ (A B : List Char), (∀ c ∈ A, c ≠ p0) →
      replaceAll (A ++ B) (p0 :: ptl) rep = A ++ replaceAll B (p0 :: ptl) rep := by
  intro A
  induction A with
  | nil => intro B _; rfl
  | cons a A' ih =>
    intro B hA
    have hne : (p0 == a) = false :=
      beq_eq_false_iff_ne.mpr fun he => (hA a (List.mem_cons_self a A')) he.symm
    have hpre : (p0 :: ptl).isPrefixOf (a :: (A' ++ B)) = false := by
      rw [List.isPrefixOf, hne, Bool.false_and]
    rw [List.cons_append,
      replaceAll_cons_nomatch rep (fun hcon => by rw [hpre] at hcon; exact absurd hcon.2 (by simp)),
      ih B (fun c hc => hA c (List.mem_cons_of_mem a hc))]
    rfl

theorem replaceAll_extends_aux (p0 : Char) (ptl tl rep : List Char)
    (h1 : p0 ∉ ptl) (h2 : p0 ∉ tl) :
    ∀ (n : Nat) (hay : List Char), hay.length ≤ n →
      containsSub hay ((p0 :: ptl) ++ tl) = true →
      containsSub (replaceAll hay (p0 :: ptl) rep) (rep ++ tl) = true := by
  intro n
  induction n with
  | zero =>
    intro hay hn hc
    have hhay : hay = [] := List.length_eq_zero.mp (Nat.le_zero.mp hn)
    subst hhay
    rw [containsSub] at hc
    exact absurd (of_decide_eq_true hc) (by simp)
  | succ n ih =>
    intro hay hn hc
    cases hay with
    | nil =>
      rw [containsSub] at hc
      exact absurd (of_decide_eq_true hc) (by simp)
    | cons h t =>
      obtain ⟨l, r, hlr⟩ := (containsSub_iff _ _).mp hc
      by_cases hm : (p0 :: ptl).isPrefixOf (h :: t) = true
      · obtain ⟨rest, hrest⟩ := List.isPrefixOf_iff_prefix.mp hm
        rw [replaceAll_cons_match rep (by simp) hm]
        have hdrop : (h :: t).drop (p0 :: ptl).length = rest := by
          rw [← hrest, List.drop_left]
        rw [hdrop]
        rcases Nat.lt_or_ge l.length (p0 :: ptl).length with hl | hl
        · have hlpre : l <+: (h :: t) :=
            ⟨((p0 :: ptl) ++ tl) ++ r, by rw [← List.append_assoc, ← hlr]⟩
          have hppre : (p0 :: ptl) <+: (h :: t) := ⟨rest, hrest⟩
          have hlp : l <+: (p0 :: ptl) :=
            List.prefix_of_prefix_length_le hlpre hppre (Nat.le_of_lt hl)
          obtain ⟨m, hmeq⟩ := hlp
          cases l with
          | nil =>
            have heq : (p0 :: ptl) ++ rest = (p0 :: ptl) ++ (tl ++ r) := by
              rw [hrest, hlr]
              simp [List.append_assoc]
            have hrest2 : rest = tl ++ r := List.append_cancel_left heq
            subst hrest2
            rw [replaceAll_append_no_head p0 ptl rep tl r (fun c hcm he => h2 (he ▸ hcm))]
            exact (containsSub_iff _ _).mpr ⟨[], replaceAll r (p0 :: ptl) rep,
              by rw [List.nil_append, List.append_assoc]⟩
          | cons a l' =>
            exfalso
            cases m with
            | nil =>
              rw [List.append_nil] at hmeq
              rw [hmeq] at hl
              exact Nat.lt_irrefl _ hl
            | cons m0 m' =>
              have hmem : m0 ∈ ptl := by
                have hcons : a :: (l' ++ (m0 :: m')) = p0 :: ptl := by
                  rw [← hmeq]
                  rfl
                have hptl : ptl = l' ++ (m0 :: m') :=
                  ((List.cons.injEq _ _ _ _ ▸ hcons).2).symm
                rw [hptl]
                exact List.mem_append_right _ (List.mem_cons_self _ _)
              have hm0 : m0 = p0 := by
                have e1 : (a :: l') ++ ((m0 :: m') ++ rest) =
                    (a :: l') ++ (((p0 :: ptl) ++ tl) ++ r) := by
                  rw [← List.append_assoc, hmeq, hrest, hlr, List.append_assoc]
                have e2 := List.append_cancel_left e1
                have e3 : m0 :: (m' ++ rest) = p0 :: (ptl ++ (tl ++ r)) := by
                  simpa [List.cons_append, List.append_assoc] using e2
                exact (List.cons.injEq _ _ _ _ ▸ e3).1
              exact h1 (hm0 ▸ hmem)
        · have hlpre : l <+: (h :: t) :=
            ⟨((p0 :: ptl) ++ tl) ++ r, by rw [← List.append_assoc, ← hlr]⟩
          have hppre : (p0 :: ptl) <+: (h :: t) := ⟨rest, hrest⟩
          have hpl : (p0 :: ptl) <+: l := List.prefix_of_prefix_length_le hppre hlpre hl
          obtain ⟨l2, hl2⟩ := hpl
          have e1 : (p0 :: ptl) ++ rest =
              (p0 :: ptl) ++ ((l2 ++ ((p0 :: ptl) ++ tl)) ++ r) := by
            rw [hrest, hlr, ← hl2]
            simp [List.append_assoc]
          have hrest2 : rest = (l2 ++ ((p0 :: ptl) ++ tl)) ++ r :=
            List.append_cancel_left e1
          have hcrest : containsSub rest ((p0 :: ptl) ++ tl) = true :=
            (containsSub_iff _ _).mpr ⟨l2, r, hrest2⟩
          have hlen : rest.length ≤ n := by
            have hlen1 : (h :: t).length = (p0 :: ptl).length + rest.length := by
              rw [← hrest, List.length_append]
            simp only [List.length_cons] at hlen1 hn
            omega
          exact containsSub_append_left _ _ _ (ih rest hlen hcrest)
      · rw [replaceAll_cons_nomatch rep (fun hcon => hm hcon.2)]
        cases l with
        | nil =>
          exfalso
          apply hm
          apply List.isPrefixOf_iff_prefix.mpr
          refine ⟨tl ++ r, ?_⟩
          rw [hlr]
          simp [List.append_assoc]
        | cons a l' =>
          have hinj : t = (l' ++ ((p0 :: ptl) ++ tl)) ++ r := by
            have hco := hlr
            simp only [List.cons_append] at hco
            exact (List.cons.injEq _ _ _ _ ▸ hco).2
          have hct : containsSub t ((p0 :: ptl) ++ tl) = true :=
            (containsSub_iff _ _).mpr ⟨l', r, hinj⟩
          have hlen : t.length ≤ n := by
            simp only [List.length_cons] at hn
            omega
          exact containsSub_cons_of _ _ _ (ih t hlen hct)

theorem replaceAll_extends (p0 : Char) (ptl tl rep hay : List Char)
    (h1 : p0 ∉ ptl) (h2 : p0 ∉ tl)
    (hc : containsSub hay ((p0 :: ptl) ++ tl) = true) :
    containsSub (replaceAll hay (p0 :: ptl) rep) (rep ++ tl) = true :=
  replaceAll_extends_aux p0 ptl tl rep h1 h2 hay.length hay (Nat.le_refl _) hc

theorem replaceAll_preserves_aux (p0 x0 : Char) (ptl rep X' : List Char)
    (h1 : p0 ∉ ptl)
    (h2 : ∀ c ∈ X', c ≠ p0)
    (h3 : ∀ r : List Char, (p0 :: ptl).isPrefixOf ((x0 :: X') ++ r) = false)
    (h4 : x0 = p0 ∨ x0 ∉ p0 :: ptl) :
    ∀ (n : Nat) (hay : List Char), hay.length ≤ n →
      containsSub hay (x0 :: X') = true →
      containsSub (replaceAll hay (p0 :: ptl) rep) (x0 :: X') = true := by
  intro n
  induction n with
  | zero =>
    intro hay hn hc
    have hhay : hay = [] := List.length_eq_zero.mp (Nat.le_zero.mp hn)
    subst hhay
    rw [containsSub] at hc
    exact absurd (of_decide_eq_true hc) (by simp)
  | succ n ih =>
    intro hay hn hc
    cases hay with
    | nil =>
      rw [containsSub] at hc
      exact absurd (of_decide_eq_true hc) (by simp)
    | cons h t =>
      obtain ⟨l, r, hlr⟩ := (containsSub_iff _ _).mp hc
      by_cases hm : (p0 :: ptl).isPrefixOf (h :: t) = true
      · obtain ⟨rest, hrest⟩ := List.isPrefixOf_iff_prefix.mp hm
        rw [replaceAll_cons_match rep (by simp) hm]
        have hdrop : (h :: t).drop (p0 :: ptl).length = rest := by
          rw [← hrest, List.drop_left]
        rw [hdrop]
        rcases Nat.lt_or_ge l.length (p0 :: ptl).length with hl | hl
        · have hlpre : l <+: (h :: t) :=
            ⟨((x0 :: X') ++ r), by rw [← List.append_assoc, ← hlr]⟩
          have hppre : (p0 :: ptl) <+: (h :: t) := ⟨rest, hrest⟩
          have hlp : l <+: (p0 :: ptl) :=
            List.prefix_of_prefix_length_le hlpre hppre (Nat.le_of_lt hl)
          obtain ⟨m, hmeq⟩ := hlp
          cases l with
          | nil =>
            exfalso
            have hxr : h :: t = (x0 :: X') ++ r := by
              rw [hlr]
              simp
            rw [hxr, h3 r] at hm
            exact Bool.false_ne_true hm
          | cons a l' =>
            exfalso
            cases m with
            | nil =>
              rw [List.append_nil] at hmeq
              rw [hmeq] at hl
              exact Nat.lt_irrefl _ hl
            | cons m0 m' =>
              have hmem : m0 ∈ ptl := by
                have hcons : a :: (l' ++ (m0 :: m')) = p0 :: ptl := by
                  rw [← hmeq]
                  rfl
                have hptl : ptl = l' ++ (m0 :: m') :=
                  ((List.cons.injEq _ _ _ _ ▸ hcons).2).symm
                rw [hptl]
                exact List.mem_append_right _ (List.mem_cons_self _ _)
              have hm0 : m0 = x0 := by
                have e1 : (a :: l') ++ ((m0 :: m') ++ rest) =
                    (a :: l') ++ ((x0 :: X') ++ r) := by
                  rw [← List.append_assoc, hmeq, hrest, hlr, List.append_assoc]
                have e2 := List.append_cancel_left e1
                have e3 : m0 :: (m' ++ rest) = x0 :: (X' ++ r) := by
                  simpa [List.cons_append] using e2
                exact (List.cons.injEq _ _ _ _ ▸ e3).1
              rcases h4 with h4a | h4b
              · exact h1 ((hm0.trans h4a) ▸ hmem)
              · exact h4b (List.mem_cons_of_mem _ (hm0 ▸ hmem))
        · have hlpre : l <+: (h :: t) :=
            ⟨((x0 :: X') ++ r), by rw [← List.append_assoc, ← hlr]⟩
          have hppre : (p0 :: ptl) <+: (h :: t) := ⟨rest, hrest⟩
          have hpl : (p0 :: ptl) <+: l := List.prefix_of_prefix_length_le hppre hlpre hl
          obtain ⟨l2, hl2⟩ := hpl
          have e1 : (p0 :: ptl) ++ rest =
              (p0 :: ptl) ++ ((l2 ++ (x0 :: X')) ++ r) := by
            rw [hrest, hlr, ← hl2]
            simp [List.append_assoc]
          have hrest2 : rest = (l2 ++ (x0 :: X')) ++ r :=
            List.append_cancel_left e1
          have hcrest : containsSub rest (x0 :: X') = true :=
            (containsSub_iff _ _).mpr ⟨l2, r, hrest2⟩
          have hlen : rest.length ≤ n := by
            have hlen1 : (h :: t).length = (p0 :: ptl).length + rest.length := by
              rw [← hrest, List.length_append]
            simp only [List.length_cons] at hlen1 hn
            omega
          exact containsSub_append_left _ _ _ (ih rest hlen hcrest)
      · rw [replaceAll_cons_nomatch rep (fun hcon => hm hcon.2)]
        cases l with
        | nil =>
          have hxr : h :: t = x0 :: (X' ++ r) := by
            rw [hlr]
            simp
          have hh : h = x0 := (List.cons.injEq _ _ _ _ ▸ hxr).1
          have ht : t = X' ++ r := (List.cons.injEq _ _ _ _ ▸ hxr).2
          subst hh
          subst ht
          rw [replaceAll_append_no_head p0 ptl rep X' r h2]
          exact (containsSub_iff _ _).mpr ⟨[], replaceAll r (p0 :: ptl) rep, by simp⟩
        | cons a l' =>
          have hinj : t = (l' ++ (x0 :: X')) ++ r := by
            have hco := hlr
            simp only [List.cons_append] at hco
            exact (List.cons.injEq _ _ _ _ ▸ hco).2
          have hct : containsSub t (x0 :: X') = true :=
            (containsSub_iff _ _).mpr ⟨l', r, hinj⟩
          have hlen : t.length ≤ n := by
            simp only [List.length_cons] at hn
            omega
          exact containsSub_cons_of _ _ _ (ih t hlen hct)

theorem replaceAll_preserves (p0 x0 : Char) (ptl rep X' hay : List Char)
    (h1 : p0 ∉ ptl)
    (h2 : ∀ c ∈ X', c ≠ p0)
    (h3 : ∀ r : List Char, (p0 :: ptl).isPrefixOf ((x0 :: X') ++ r) = false)
    (h4 : x0 = p0 ∨ x0 ∉ p0 :: ptl)
    (hc : containsSub hay (x0 :: X') = true) :
    containsSub (replaceAll hay (p0 :: ptl) rep) (x0 :: X') = true :=
  replaceAll_preserves_aux p0 x0 ptl rep X' h1 h2 h3 h4 hay.length hay (Nat.le_refl _) hc

/-- C9: `unescape_xml` applies its five entity replacements in the fixed
order &apos;, &quot;, &amp;, &lt;, &gt;, so the &amp; rewrite runs before
the &lt;/&gt; ones; consequently, for every input containing the text
"&amp;lt;" the output contains "<" (the function double-unescapes
entities whose ampersand was itself escaped); at the concrete input the
occurrence becomes exactly "<" and no "&lt;" remains in the output. -/
theorem c9_unescape_order (s : String) :
    (strContains s "&amp;lt;" = true → strContains (unescape_xml s) "<" = true) ∧
    unescape_xml "&amp;lt;" = "<" ∧
    strContains (unescape_xml "x&amp;lt;y") "&lt;" = false ∧
    strContains (unescape_xml "x&amp;lt;y") "<" = true := by
  refine ⟨fun hin => ?_, by rfl, by rfl, by rfl⟩
  have h0 : containsSub s.data ('&' :: "amp;lt;".data) = true := hin
  have e1 : containsSub (replaceAll s.data ("&apos;".data) ("'".data))
      ('&' :: "amp;lt;".data) = true :=
    replaceAll_preserves '&' '&' ("apos;".data) ("'".data) ("amp;lt;".data) s.data
      (by decide) (by decide) (by intro r; simp [List.isPrefixOf]) (Or.inl rfl) h0
  have e2 : containsSub (replaceAll (replaceAll s.data ("&apos;".data) ("'".data))
      ("&quot;".data) ("\"".data)) ('&' :: "amp;lt;".data) = true :=
    replaceAll_preserves '&' '&' ("quot;".data) ("\"".data) ("amp;lt;".data) _
      (by decide) (by decide) (by intro r; simp [List.isPrefixOf]) (Or.inl rfl) e1
  have e2' : containsSub (replaceAll (replaceAll s.data ("&apos;".data) ("'".data))
      ("&quot;".data) ("\"".data)) (('&' :: "amp;".data) ++ "lt;".data) = true := e2
  have e3 : containsSub (replaceAll (replaceAll (replaceAll s.data
      ("&apos;".data) ("'".data)) ("&quot;".data) ("\"".data))
      ("&amp;".data) ("&".data)) ("&".data ++ "lt;".data) = true :=
    replaceAll_extends '&' ("amp;".data) ("lt;".data) ("&".data) _
      (by decide) (by decide) e2'
  have e3' : containsSub (replaceAll (replaceAll (replaceAll s.data
      ("&apos;".data) ("'".data)) ("&quot;".data) ("\"".data))
      ("&amp;".data) ("&".data)) (('&' :: "lt;".data) ++ ([] : List Char)) = true := e3
  have e4 : containsSub (replaceAll (replaceAll (replaceAll (replaceAll s.data
      ("&apos;".data) ("'".data)) ("&quot;".data) ("\"".data))
      ("&amp;".data) ("&".data)) ("&lt;".data) ("<".data))
      ("<".data ++ ([] : List Char)) = true :=
    replaceAll_extends '&' ("lt;".data) ([] : List Char) ("<".data) _
      (by decide) (by simp) e3'
  have e4' : containsSub (replaceAll (replaceAll (replaceAll (replaceAll s.data
      ("&apos;".data) ("'".data)) ("&quot;".data) ("\"".data))
      ("&amp;".data) ("&".data)) ("&lt;".data) ("<".data))
      ('<' :: ([] : List Char)) = true := e4
  have e5 : containsSub (replaceAll (replaceAll (replaceAll (replaceAll (replaceAll s.data
      ("&apos;".data) ("'".data)) ("&quot;".data) ("\"".data))
      ("&amp;".data) ("&".data)) ("&lt;".data) ("<".data)) ("&gt;".data) (">".data))
      ('<' :: ([] : List Char)) = true :=
    replaceAll_preserves '&' '<' ("gt;".data) (">".data) ([] : List Char) _
      (by decide) (by intro c hc; simp at hc)
      (by intro r; simp [List.isPrefixOf]) (Or.inr (by decide)) e4'
  exact e5

/-- Witness for C9: a context-embedded occurrence of "&amp;lt;"
double-unescapes to "<". -/
theorem c9_unescape_order_witness :
    strContains (unescape_xml "a &amp;lt; b") "<" = true :=
  (c9_unescape_order "a &amp;lt; b").1 (by decide)

end Svue
